import Mathlib

/-!
Verification of `src/train/trainer.py` (class `Trainer`) of the
Sentiment_analysiss repository.

The Python code is shallowly embedded below:

* float values (losses, weights, tensor entries) are modelled as `ℚ`;
  `float('inf')` (the initial `best_val_loss`) is modelled as `⊤` in
  `WithTop ℚ`;
* a batched image tensor of shape `(batch, channel, size2, size3)` is a
  function `Fin n → ℕ → ℤ → ℤ → ℚ`, a label tensor is `Fin n → ℚ`;
* random draws (`np.random.beta`, `np.random.randint`, `torch.randperm`)
  are universally quantified parameters (`draw`, `cx`, `cy`, `perm`);
* external library calls that the trainer merely glues together
  (`sklearn` metrics, `F.softmax`, the model's forward pass and
  `get_contrastive_loss`) are abstract function parameters;
* the epoch loop of `Trainer.train` is a recursive function over the list
  of per-epoch outcomes (`_train_epoch` / `_validate` results), emitting
  an `Event` trace for the file-system side effects (checkpoint saves,
  best-model reload, final evaluations).
-/

namespace SentimentTrainer

/-- The configuration fields of `Config` that `Trainer` reads
(`src/config/config.py` is not part of the sources; the fields and their
uses are taken from `trainer.py`).  Float-valued fields are `ℚ`. -/
structure TrainConfig where
  num_epochs : ℕ
  early_stop_patience : ℕ
  num_classes : ℕ
  use_class_weights : Bool
  class_weight_method : String
  effective_num_beta : ℚ
  contrastive_weight : ℚ
  temperature : ℚ
  mixup_alpha : ℚ
  cutmix_alpha : ℚ

/-! ### Class weights (`Trainer._calculate_class_weights`, lines 119-170) -/

/-- `np.bincount(all_labels, minlength=m)`: entry `k` counts the
occurrences of `k`; the length is the maximum of `m` and
(largest label + 1). -/
def bincount (minlength : ℕ) (labels : List ℕ) : List ℕ :=
  (List.range (max minlength (labels.foldr (fun l m => max (l + 1) m) 0))).map
    (fun k => labels.count k)

/-- The pre-normalization weight vector of `_calculate_class_weights`
(lines 145-161), one entry per class count.  `np.sqrt` on a count is an
irrational real in general; it is abstracted as the parameter `sq`
(the theorems assume of it only what is true of the real square root on
positive integers: positivity). -/
def rawClassWeights (cfg : TrainConfig) (sq : ℕ → ℚ) (counts : List ℕ) : List ℚ :=
  if cfg.class_weight_method = "inverse" then
    counts.map (fun n : ℕ => 1 / (n : ℚ))
  else if cfg.class_weight_method = "inverse_sqrt" then
    counts.map (fun n : ℕ => 1 / sq n)
  else if cfg.class_weight_method = "effective_samples" then
    counts.map (fun n : ℕ =>
      (1 - cfg.effective_num_beta) / (1 - cfg.effective_num_beta ^ n))
  else
    counts.map (fun n : ℕ => 1 / (n : ℚ))

/-- `Trainer._calculate_class_weights` (lines 119-170): `none` models the
Python `None`; otherwise the counts come from `np.bincount` with
`minlength=NUM_CLASSES` and the weights are normalized by
`weights / weights.sum() * NUM_CLASSES` (line 164). -/
def calculate_class_weights (cfg : TrainConfig) (sq : ℕ → ℚ) (labels : List ℕ) :
    Option (List ℚ) :=
  if cfg.use_class_weights = false then none
  else
    let counts := bincount cfg.num_classes labels
    let weights := rawClassWeights cfg sq counts
    some (weights.map (fun w => w / weights.sum * (cfg.num_classes : ℚ)))

/-! ### Data augmentation (`_mixup`, `_cutmix`, `_rand_bbox`, lines 172-225) -/

/-- A batched image tensor of batch size `n`: sample, channel, index along
dimension 2, index along dimension 3. -/
abbrev ImgT (n : ℕ) := Fin n → ℕ → ℤ → ℤ → ℚ

/-- A label tensor of batch size `n`. -/
abbrev LblT (n : ℕ) := Fin n → ℚ

/-- The `lam` used by `_mixup` and `_cutmix` (lines 174-177, 189-192):
`np.random.beta(alpha, alpha)` when `alpha > 0` — `draw` stands for the
sampled value — and `1` otherwise. -/
def lam_of (alpha draw : ℚ) : ℚ := if 0 < alpha then draw else 1

/-- `mixed_images = lam * images + (1 - lam) * images[index, :]`
(line 182); `perm` is the `torch.randperm(batch_size)` permutation. -/
def mixup_images (n : ℕ) (lam : ℚ) (perm : Equiv.Perm (Fin n)) (images : ImgT n) :
    ImgT n :=
  fun s c x y => lam * images s c x y + (1 - lam) * images (perm s) c x y

/-- `lam * labels + (1 - lam) * labels[index]` (lines 183 and 204). -/
def mix_labels (n : ℕ) (lam : ℚ) (perm : Equiv.Perm (Fin n)) (labels : LblT n) :
    LblT n :=
  fun s => lam * labels s + (1 - lam) * labels (perm s)

/-- `Trainer._mixup` (lines 172-185), value level: the pair of mixed
images and mixed labels. -/
def mixup (n : ℕ) (alpha draw : ℚ) (perm : Equiv.Perm (Fin n))
    (images : ImgT n) (labels : LblT n) : ImgT n × LblT n :=
  let lam := lam_of alpha draw
  (mixup_images n lam perm images, mix_labels n lam perm labels)

/-- `np.clip(x, lo, hi)`. -/
def np_clip (x lo hi : ℤ) : ℤ := min (max x lo) hi

/-- `⌊Real.sqrt q⌋` for a rational `q`, computed exactly: for a real
`x ≥ 0` and an integer `k ≥ 0`, `k ≤ √x ↔ k^2 ≤ x ↔ k^2 ≤ ⌊x⌋`, so
`⌊√q⌋ = Nat.sqrt ⌊q⌋` (and `toNat` is the identity on the relevant,
nonnegative inputs). -/
def sqrtFloorQ (q : ℚ) : ℕ := Nat.sqrt q.floor.toNat

/-- `Trainer._rand_bbox` (lines 208-225) with `W = size[2]`,
`H = size[3]`.  `cut_w = int(W * np.sqrt(1 - lam))` is the exact floor
`⌊√(W² * (1 - lam))⌋` (`int` truncates and the value is nonnegative);
`cx = np.random.randint(W)` and `cy = np.random.randint(H)` are passed in
as parameters.  Python's `//` on the nonnegative `cut_w` is `ℕ`
division. -/
def rand_bbox (W H : ℤ) (lam : ℚ) (cx cy : ℤ) : ℤ × ℤ × ℤ × ℤ :=
  let cut_w : ℕ := sqrtFloorQ (((W * W : ℤ) : ℚ) * (1 - lam))
  let cut_h : ℕ := sqrtFloorQ (((H * H : ℤ) : ℚ) * (1 - lam))
  let bbx1 := np_clip (cx - ((cut_w / 2 : ℕ) : ℤ)) 0 W
  let bby1 := np_clip (cy - ((cut_h / 2 : ℕ) : ℤ)) 0 H
  let bbx2 := np_clip (cx + ((cut_w / 2 : ℕ) : ℤ)) 0 W
  let bby2 := np_clip (cy + ((cut_h / 2 : ℕ) : ℤ)) 0 H
  (bbx1, bby1, bbx2, bby2)

/-- The recomputed mixing coefficient of `_cutmix` (line 202):
`1 - ((bbx2 - bbx1) * (bby2 - bby1) / (size[-1] * size[-2]))`, where
`size[-1] * size[-2] = H * W`. -/
def cutmix_lam (W H bbx1 bby1 bbx2 bby2 : ℤ) : ℚ :=
  1 - (((bbx2 - bbx1) * (bby2 - bby1) : ℤ) : ℚ) / ((H * W : ℤ) : ℚ)

/-- The slice assignment of `_cutmix` (line 201):
`images[:, :, bbx1:bbx2, bby1:bby2] = images[index, :, bbx1:bbx2, bby1:bby2]`.
The right-hand side is an advanced-indexing copy of the original tensor,
so every entry of the region comes from the pre-assignment values. -/
def cutmix_images (n : ℕ) (bbx1 bby1 bbx2 bby2 : ℤ) (perm : Equiv.Perm (Fin n))
    (images : ImgT n) : ImgT n :=
  fun s c x y =>
    if bbx1 ≤ x ∧ x < bbx2 ∧ bby1 ≤ y ∧ y < bby2 then images (perm s) c x y
    else images s c x y

/-- `Trainer._cutmix` (lines 187-206), value level. -/
def cutmix (n : ℕ) (W H : ℤ) (alpha draw : ℚ) (perm : Equiv.Perm (Fin n))
    (cx cy : ℤ) (images : ImgT n) (labels : LblT n) : ImgT n × LblT n :=
  let lam := lam_of alpha draw
  let bb := rand_bbox W H lam cx cy
  let lam2 := cutmix_lam W H bb.1 bb.2.1 bb.2.2.1 bb.2.2.2
  (cutmix_images n bb.1 bb.2.1 bb.2.2.1 bb.2.2.2 perm images,
   mix_labels n lam2 perm labels)

/-! ### Object identity of the augmentation outputs

To state which tensors are mutated in place and which are freshly
allocated, tensors live in a heap of cells addressed by `ℕ`; a PyTorch
arithmetic expression such as `lam * images + ...` allocates a new cell,
while the slice assignment `images[...] = ...` writes to the existing
cell of its target. -/

structure Heap (α : Type) where
  next : ℕ
  mem : ℕ → α

/-- Overwrite the cell at address `a`. -/
def Heap.write {α : Type} (h : Heap α) (a : ℕ) (v : α) : Heap α :=
  ⟨h.next, fun b => if b = a then v else h.mem b⟩

/-- Allocate a fresh cell holding `v`, returning the new heap and the
fresh address. -/
def Heap.alloc {α : Type} (h : Heap α) (v : α) : Heap α × ℕ :=
  (⟨h.next + 1, fun b => if b = h.next then v else h.mem b⟩, h.next)

/-- `Trainer._mixup` at the heap level: both returned tensors
(`mixed_images`, line 182, and `mixed_labels`, line 183) are results of
tensor arithmetic, hence freshly allocated; the argument cells `ai`
(images) and `al` (labels) are only read. -/
def mixupH (n : ℕ) (alpha draw : ℚ) (perm : Equiv.Perm (Fin n))
    (hi : Heap (ImgT n)) (ai : ℕ) (hl : Heap (LblT n)) (al : ℕ) :
    (Heap (ImgT n) × ℕ) × (Heap (LblT n) × ℕ) :=
  let lam := lam_of alpha draw
  (hi.alloc (mixup_images n lam perm (hi.mem ai)),
   hl.alloc (mix_labels n lam perm (hl.mem al)))

/-- `Trainer._cutmix` at the heap level: line 201 is an in-place slice
assignment on the argument tensor, and line 206 returns that same
`images` object; `mixed_labels` (line 204) is tensor arithmetic, hence a
fresh cell. -/
def cutmixH (n : ℕ) (W H : ℤ) (alpha draw : ℚ) (perm : Equiv.Perm (Fin n))
    (cx cy : ℤ) (hi : Heap (ImgT n)) (ai : ℕ) (hl : Heap (LblT n)) (al : ℕ) :
    (Heap (ImgT n) × ℕ) × (Heap (LblT n) × ℕ) :=
  let lam := lam_of alpha draw
  let bb := rand_bbox W H lam cx cy
  let lam2 := cutmix_lam W H bb.1 bb.2.1 bb.2.2.1 bb.2.2.2
  ((hi.write ai (cutmix_images n bb.1 bb.2.1 bb.2.2.1 bb.2.2.2 perm (hi.mem ai)), ai),
   hl.alloc (mix_labels n lam2 perm (hl.mem al)))

/-! ### Per-batch loss (`Trainer._train_epoch`, lines 340-358) -/

/-- The model as `_train_epoch` consumes it: `forward` produces
`(logits, text_features, image_features, alpha)` (line 340), and
`get_contrastive_loss` is present exactly when
`hasattr(self.model, 'get_contrastive_loss')` holds (line 349); its
arguments are the two feature tensors and the temperature. -/
structure ModelIface (Txt Im F L A : Type) where
  forward : Txt → Im → L × F × F × A
  get_contrastive_loss : Option (F → F → ℚ → ℚ)

/-- The loss backpropagated for one (post-augmentation) training batch
(lines 340-358).  `criterion` abstracts `nn.CrossEntropyLoss` applied to
`(logits, labels)`. -/
def train_step_loss {Txt Im F L A Lb : Type} (cfg : TrainConfig)
    (M : ModelIface Txt Im F L A) (criterion : L → Lb → ℚ)
    (txt : Txt) (images : Im) (labels : Lb) : ℚ :=
  let out := M.forward txt images
  let classification_loss := criterion out.1 labels
  match M.get_contrastive_loss with
  | some gcl =>
      classification_loss +
        cfg.contrastive_weight * gcl out.2.1 out.2.2.1 cfg.temperature
  | none => classification_loss

/-! ### The epoch loop of `Trainer.train` (lines 227-312)

The per-epoch numeric results of `_train_epoch` and `_validate` depend on
the model (not part of this repository) and on autograd; one `EpochOutcome` bundles what those
two calls return for one epoch, and the loop consumes a list of them.
File-system side effects are recorded as an `Event` trace. -/

structure EpochOutcome where
  train_loss : ℚ
  train_acc : ℚ
  val_loss : ℚ
  val_acc : ℚ
  val_f1 : ℚ
  alpha_values : List ℚ
  deriving Inhabited

/-- The side effects of `train` that the claims talk about:
`save_best k` is `save_model(..., "best_model.pt")` during epoch `k`
(0-based, line 269); `save_epoch_ckpt k` is
`save_model(..., f"model_epoch_{k+1}.pt")` (lines 280-283); `load_best`
is the reload of `best_model.pt` (line 293); `eval_test` / `eval_noise`
are the two `self.evaluate` calls (lines 296-297). -/
inductive Event where
  | save_best (epoch : ℕ)
  | save_epoch_ckpt (epoch : ℕ)
  | load_best
  | eval_test
  | eval_noise
  deriving DecidableEq

/-- The mutable trainer attributes that the epoch loop updates:
`best_val_loss` (initially `float('inf')`, modelled `⊤`),
`patience_counter`, and the history lists (lines 109-117). -/
structure TrainerState where
  best_val_loss : WithTop ℚ
  patience_counter : ℕ
  train_losses : List ℚ
  val_losses : List ℚ
  train_accuracies : List ℚ
  val_accuracies : List ℚ
  alpha_history : List ℚ

/-- The state set up in `__init__` (lines 109-117). -/
def initialState : TrainerState := ⟨⊤, 0, [], [], [], [], []⟩

structure StepResult where
  state : TrainerState
  events : List Event
  stop : Bool

/-- One iteration of the epoch loop (lines 236-289): append the epoch's
statistics to the histories (lines 246-250), then the early-stopping
check (lines 264-277) and, unless the `break` fired, the per-epoch
checkpoint (lines 280-283).  `stop` is whether line 277's `break` ran. -/
def epochBody (cfg : TrainConfig) (s : TrainerState) (epoch : ℕ)
    (o : EpochOutcome) : StepResult :=
  let s1 : TrainerState :=
    { s with
      train_losses := s.train_losses ++ [o.train_loss]
      val_losses := s.val_losses ++ [o.val_loss]
      train_accuracies := s.train_accuracies ++ [o.train_acc]
      val_accuracies := s.val_accuracies ++ [o.val_acc]
      alpha_history := s.alpha_history ++ o.alpha_values }
  if (o.val_loss : WithTop ℚ) < s1.best_val_loss then
    ⟨{ s1 with best_val_loss := (o.val_loss : WithTop ℚ), patience_counter := 0 },
     [Event.save_best epoch, Event.save_epoch_ckpt epoch], false⟩
  else if cfg.early_stop_patience ≤ s1.patience_counter + 1 then
    ⟨{ s1 with patience_counter := s1.patience_counter + 1 }, [], true⟩
  else
    ⟨{ s1 with patience_counter := s1.patience_counter + 1 },
     [Event.save_epoch_ckpt epoch], false⟩

structure LoopResult where
  state : TrainerState
  events : List Event
  epochsRun : ℕ
  stoppedEarly : Bool

/-- The epoch loop `for epoch in range(NUM_EPOCHS)` (line 235), run over
the listed outcomes: `epochsRun` counts the iterations whose body
executed (including the one that `break`s), `stoppedEarly` is whether the
loop ended by `break`. -/
def trainLoop (cfg : TrainConfig) (s : TrainerState) (epoch : ℕ) :
    List EpochOutcome → LoopResult
  | [] => ⟨s, [], 0, false⟩
  | o :: rest =>
    let r := epochBody cfg s epoch o
    if r.stop then ⟨r.state, r.events, 1, true⟩
    else
      let r2 := trainLoop cfg r.state (epoch + 1) rest
      ⟨r2.state, r.events ++ r2.events, r2.epochsRun + 1, r2.stoppedEarly⟩

/-- The epoch loop of one `train()` call: `range(NUM_EPOCHS)` bounds the
iterations, so at most the first `NUM_EPOCHS` outcomes are consumed. -/
def train_run (cfg : TrainConfig) (outs : List EpochOutcome) : LoopResult :=
  trainLoop cfg initialState 0 (outs.take cfg.num_epochs)

/-! ### `Trainer.evaluate` (lines 444-506) and the tail of `train` -/

/-- One batch as `evaluate` sees it: the logits the model produced for
its samples (one list of class scores per sample) and the labels. -/
structure EvalBatch where
  logits : List (List ℚ)
  labels : List ℕ

/-- The external numeric routines `evaluate` calls: the three `sklearn`
metrics and `F.softmax`.  `roc_auc_score` can raise (line 490 catches
any exception); `none` models the raising call. -/
structure ExternalMetrics where
  accuracy_score : List ℕ → List ℕ → ℚ
  f1_average : List ℕ → List ℕ → ℚ
  roc_auc_ovr : List (List ℚ) → List (List ℚ) → Option ℚ
  softmax : List ℚ → List ℚ

/-- `torch.max(logits, 1)` indices: the first index attaining the
maximum class score of one sample. -/
def argmax (scores : List ℚ) : ℕ :=
  (List.range scores.length).foldl
    (fun best j => if scores.getD best 0 < scores.getD j 0 then j else best) 0

/-- `np.eye(C)[k]`: the one-hot row used at line 485. -/
def onehot (C k : ℕ) : List ℚ :=
  (List.range C).map (fun j => if j = k then (1 : ℚ) else 0)

/-- What `evaluate` returns (lines 499-506). -/
structure EvalResult where
  accuracy : ℚ
  f1 : ℚ
  auc : ℚ
  predictions : List ℕ
  labels : List ℕ
  probabilities : List (List ℚ)

/-- `Trainer.evaluate` (lines 444-506): collect predictions, labels and
softmax probabilities over all batches, then apply the metrics; `auc`
starts at `0` and keeps that value when `roc_auc_score` raises
(lines 481-491). -/
def evaluate (cfg : TrainConfig) (E : ExternalMetrics) (batches : List EvalBatch) :
    EvalResult :=
  let all_preds := ((batches.map (·.logits)).flatten).map argmax
  let all_labels := (batches.map (·.labels)).flatten
  let all_probs := ((batches.map (·.logits)).flatten).map E.softmax
  { accuracy := E.accuracy_score all_labels all_preds
    f1 := E.f1_average all_labels all_preds
    auc := (E.roc_auc_ovr (all_labels.map (onehot cfg.num_classes))
              all_probs).getD 0
    predictions := all_preds
    labels := all_labels
    probabilities := all_probs }

/-- The dictionary `train` returns (lines 304-312). -/
structure TrainResult where
  train_losses : List ℚ
  val_losses : List ℚ
  train_accuracies : List ℚ
  val_accuracies : List ℚ
  alpha_history : List ℚ
  test_results : EvalResult
  noise_test_results : EvalResult

/-- `Trainer.train` (lines 227-312): the epoch loop, then the reload of
`best_model.pt` (line 293), then the evaluation of the test and noisy
test loaders (lines 296-297), then the result dictionary. -/
def train (cfg : TrainConfig) (E : ExternalMetrics) (outs : List EpochOutcome)
    (test_batches noise_batches : List EvalBatch) : TrainResult × List Event :=
  let r := train_run cfg outs
  let test_results := evaluate cfg E test_batches
  let noise_test_results := evaluate cfg E noise_batches
  ({ train_losses := r.state.train_losses
     val_losses := r.state.val_losses
     train_accuracies := r.state.train_accuracies
     val_accuracies := r.state.val_accuracies
     alpha_history := r.state.alpha_history
     test_results := test_results
     noise_test_results := noise_test_results },
   r.events ++ [Event.load_best, Event.eval_test, Event.eval_noise])

/-! ### Specification-side predicates for early stopping

These restate the spec's wording "the validation loss has failed to
improve on the best validation loss seen so far for `EARLY_STOP_PATIENCE`
consecutive epochs" directly on the list of per-epoch validation
losses. -/

/-- The best (smallest) validation loss among the first `i` epochs,
`⊤` when there is none. -/
def bestBefore (vals : List ℚ) (i : ℕ) : WithTop ℚ :=
  ((vals.take i).map (fun v : ℚ => (v : WithTop ℚ))).foldl min ⊤

/-- Epoch `i`'s validation loss is strictly below the best seen in the
epochs before it. -/
def improvesAt (vals : List ℚ) (i : ℕ) : Prop :=
  ((vals.getD i 0 : ℚ) : WithTop ℚ) < bestBefore vals i

instance (vals : List ℚ) (i : ℕ) : Decidable (improvesAt vals i) :=
  inferInstanceAs (Decidable (((vals.getD i 0 : ℚ) : WithTop ℚ) < bestBefore vals i))

/-- The number of consecutive epochs ending just before epoch `i` whose
validation loss failed to improve on the best seen so far. -/
def failStreak (vals : List ℚ) : ℕ → ℕ
  | 0 => 0
  | i + 1 => if improvesAt vals i then 0 else failStreak vals i + 1

/-- By the end of epoch `i`, the validation loss has failed to improve on
the best seen so far for (at least) `P` consecutive epochs. -/
def failWindow (P : ℕ) (vals : List ℚ) (i : ℕ) : Prop :=
  P ≤ i + 1 ∧ ∀ j ∈ Finset.Icc (i + 1 - P) i, ¬ improvesAt vals j

instance (P : ℕ) (vals : List ℚ) (i : ℕ) : Decidable (failWindow P vals i) :=
  inferInstanceAs (Decidable (_ ∧ _))

/-- The per-epoch validation losses of a run. -/
def valLosses (outs : List EpochOutcome) : List ℚ := outs.map (·.val_loss)

/-- The run restricted to its first `i` epochs. -/
def runUpTo (cfg : TrainConfig) (l : List EpochOutcome) (i : ℕ) : LoopResult :=
  trainLoop cfg initialState 0 (l.take i)

/-! ## Theorems -/

/-- C5: `_mixup` uses one `lam` (the Beta draw when `alpha > 0`, else
`1`) and one permutation, and returns
`lam * images + (1 - lam) * images[perm]` together with
`lam * labels + (1 - lam) * labels[perm]`; when `alpha ≤ 0` it returns
the images and labels unchanged. -/
theorem mixup_spec (n : ℕ) (alpha draw : ℚ) (perm : Equiv.Perm (Fin n))
    (images : ImgT n) (labels : LblT n) :
    (mixup n alpha draw perm images labels =
      (fun s c x y => lam_of alpha draw * images s c x y +
          (1 - lam_of alpha draw) * images (perm s) c x y,
       fun s => lam_of alpha draw * labels s +
          (1 - lam_of alpha draw) * labels (perm s))) ∧
    (0 < alpha → mixup n alpha draw perm images labels =
      (fun s c x y => draw * images s c x y + (1 - draw) * images (perm s) c x y,
       fun s => draw * labels s + (1 - draw) * labels (perm s))) ∧
    (alpha ≤ 0 → mixup n alpha draw perm images labels = (images, labels)) := by
  refine ⟨rfl, fun h => ?_, fun h => ?_⟩
  · simp only [mixup, lam_of, if_pos h]
    rfl
  · have hl : lam_of alpha draw = 1 := by
      simp only [lam_of, if_neg (not_lt.mpr h)]
    simp only [mixup, hl, Prod.mk.injEq]
    constructor
    · funext s c x y; simp only [mixup_images]; ring
    · funext s; simp only [mix_labels]; ring

theorem mixup_spec_witness :
    (0 : ℚ) ≤ 0 ∧
    mixup 1 0 0 (Equiv.refl (Fin 1)) (fun _ _ _ _ => (2 : ℚ)) (fun _ => (1 : ℚ)) =
      ((fun _ _ _ _ => (2 : ℚ)), (fun _ => (1 : ℚ))) :=
  ⟨le_refl 0,
   (mixup_spec 1 0 0 (Equiv.refl (Fin 1)) (fun _ _ _ _ => (2 : ℚ))
      (fun _ => (1 : ℚ))).2.2 (le_refl 0)⟩

/-- C2: for every training batch, when the model provides
`get_contrastive_loss` the backpropagated loss is the classification loss
plus `CONTRASTIVE_WEIGHT` times the contrastive loss of the text and
image features; otherwise it is the classification loss alone
(lines 345-358). -/
theorem loss_composition_spec {Txt Im F L A Lb : Type} (cfg : TrainConfig)
    (M : ModelIface Txt Im F L A) (criterion : L → Lb → ℚ)
    (txt : Txt) (images : Im) (labels : Lb) :
    (∀ gcl, M.get_contrastive_loss = some gcl →
      train_step_loss cfg M criterion txt images labels =
        criterion (M.forward txt images).1 labels +
          cfg.contrastive_weight *
            gcl (M.forward txt images).2.1 (M.forward txt images).2.2.1
              cfg.temperature) ∧
    (M.get_contrastive_loss = none →
      train_step_loss cfg M criterion txt images labels =
        criterion (M.forward txt images).1 labels) := by
  constructor
  · intro gcl h
    simp only [train_step_loss, h]
  · intro h
    simp only [train_step_loss, h]

theorem loss_composition_spec_witness :
    (ModelIface.mk (fun (t : ℚ) (im : ℚ) => ((t, im, t + im, (0 : ℚ)) : ℚ × ℚ × ℚ × ℚ))
        (some (fun a b temp => a + b + temp))).get_contrastive_loss =
      some (fun a b temp => a + b + temp) ∧
    train_step_loss ⟨3, 2, 3, true, "inverse", 1/2, 1/10, 1/2, 1/5, 1/5⟩
        (ModelIface.mk (fun (t : ℚ) (im : ℚ) => ((t, im, t + im, (0 : ℚ)) : ℚ × ℚ × ℚ × ℚ))
          (some (fun a b temp => a + b + temp)))
        (fun l lb => l * lb) 2 5 7 =
      2 * 7 + (1/10) * (5 + (2 + 5) + 1/2) :=
  ⟨rfl,
   ((loss_composition_spec ⟨3, 2, 3, true, "inverse", 1/2, 1/10, 1/2, 1/5, 1/5⟩
      (ModelIface.mk (fun (t : ℚ) (im : ℚ) => ((t, im, t + im, (0 : ℚ)) : ℚ × ℚ × ℚ × ℚ))
        (some (fun a b temp => a + b + temp)))
      (fun l lb => l * lb) 2 5 7).1 _ rfl).trans (by norm_num)⟩

/-- C8: `_cutmix` mutates the caller's image tensor in place — the
returned image batch is the very address it was given, and that cell now
holds the original tensor with the bounding-box region overwritten from
the permuted samples — whereas `_mixup` returns freshly allocated
tensors and leaves the cells of its input images and labels unchanged. -/
theorem augmentation_frame_spec (n : ℕ) (W H : ℤ) (alpha draw : ℚ)
    (perm : Equiv.Perm (Fin n)) (cx cy : ℤ)
    (hi : Heap (ImgT n)) (ai : ℕ) (hl : Heap (LblT n)) (al : ℕ)
    (hai : ai < hi.next) (hal : al < hl.next) :
    ((cutmixH n W H alpha draw perm cx cy hi ai hl al).1.2 = ai ∧
     (cutmixH n W H alpha draw perm cx cy hi ai hl al).1.1.mem ai =
       cutmix_images n
         (rand_bbox W H (lam_of alpha draw) cx cy).1
         (rand_bbox W H (lam_of alpha draw) cx cy).2.1
         (rand_bbox W H (lam_of alpha draw) cx cy).2.2.1
         (rand_bbox W H (lam_of alpha draw) cx cy).2.2.2 perm (hi.mem ai)) ∧
    ((mixupH n alpha draw perm hi ai hl al).1.2 ≠ ai ∧
     (mixupH n alpha draw perm hi ai hl al).2.2 ≠ al ∧
     (mixupH n alpha draw perm hi ai hl al).1.1.mem ai = hi.mem ai ∧
     (mixupH n alpha draw perm hi ai hl al).2.1.mem al = hl.mem al) := by
  refine ⟨⟨rfl, ?_⟩, ?_, ?_, ?_, ?_⟩
  · simp only [cutmixH, Heap.write, if_pos rfl, if_true]
  · simp only [mixupH, Heap.alloc]
    exact fun h => absurd (h ▸ hai) (lt_irrefl _)
  · simp only [mixupH, Heap.alloc]
    exact fun h => absurd (h ▸ hal) (lt_irrefl _)
  · simp only [mixupH, Heap.alloc]
    exact if_neg (Nat.ne_of_lt hai)
  · simp only [mixupH, Heap.alloc]
    exact if_neg (Nat.ne_of_lt hal)

theorem augmentation_frame_spec_witness :
    0 < 1 ∧
    (mixupH 1 (1/5 : ℚ) (1/2) (Equiv.refl (Fin 1))
        ⟨1, fun _ => fun _ _ _ _ => 0⟩ 0 ⟨1, fun _ => fun _ => 0⟩ 0).1.2 ≠ 0 :=
  ⟨Nat.zero_lt_one,
   (augmentation_frame_spec 1 4 4 (1/5) (1/2) (Equiv.refl (Fin 1)) 0 0
      ⟨1, fun _ => fun _ _ _ _ => 0⟩ 0 ⟨1, fun _ => fun _ => 0⟩ 0
      Nat.zero_lt_one Nat.zero_lt_one).2.1⟩

lemma np_clip_nonneg (x hi : ℤ) (h : 0 ≤ hi) : 0 ≤ np_clip x 0 hi :=
  le_min (le_max_right x 0) h

lemma np_clip_le_hi (x lo hi : ℤ) : np_clip x lo hi ≤ hi :=
  min_le_right _ _

lemma np_clip_mono (x y lo hi : ℤ) (h : x ≤ y) : np_clip x lo hi ≤ np_clip y lo hi :=
  min_le_min (max_le_max h (le_refl lo)) (le_refl hi)

lemma bbox_core (M v d : ℤ) (hM : 1 ≤ M) (hd : 0 ≤ d) :
    0 ≤ np_clip (v - d) 0 M ∧
    np_clip (v - d) 0 M ≤ np_clip (v + d) 0 M ∧
    np_clip (v + d) 0 M ≤ M :=
  ⟨np_clip_nonneg _ _ (by omega), np_clip_mono _ _ _ _ (by omega),
   np_clip_le_hi _ _ _⟩

/-- C6: for positive spatial sizes `W` (dimension 2) and `H`
(dimension 3) and any `lam ∈ [0,1]`, `_rand_bbox` returns
`0 ≤ bbx1 ≤ bbx2 ≤ W` and `0 ≤ bby1 ≤ bby2 ≤ H` — so the slice
assignment of `_cutmix` is in bounds — and the recomputed coefficient
`1 - (bbx2-bbx1)*(bby2-bby1)/(W*H)` of `_cutmix` lies in `[0,1]` and
equals the fraction of the image area not replaced by the box. -/
theorem cutmix_bbox_spec (W H : ℤ) (lam : ℚ) (cx cy : ℤ)
    (hW : 1 ≤ W) (hH : 1 ≤ H) (h0 : 0 ≤ lam) (h1 : lam ≤ 1) :
    0 ≤ (rand_bbox W H lam cx cy).1 ∧
    (rand_bbox W H lam cx cy).1 ≤ (rand_bbox W H lam cx cy).2.2.1 ∧
    (rand_bbox W H lam cx cy).2.2.1 ≤ W ∧
    0 ≤ (rand_bbox W H lam cx cy).2.1 ∧
    (rand_bbox W H lam cx cy).2.1 ≤ (rand_bbox W H lam cx cy).2.2.2 ∧
    (rand_bbox W H lam cx cy).2.2.2 ≤ H ∧
    0 ≤ cutmix_lam W H (rand_bbox W H lam cx cy).1 (rand_bbox W H lam cx cy).2.1
        (rand_bbox W H lam cx cy).2.2.1 (rand_bbox W H lam cx cy).2.2.2 ∧
    cutmix_lam W H (rand_bbox W H lam cx cy).1 (rand_bbox W H lam cx cy).2.1
        (rand_bbox W H lam cx cy).2.2.1 (rand_bbox W H lam cx cy).2.2.2 ≤ 1 ∧
    cutmix_lam W H (rand_bbox W H lam cx cy).1 (rand_bbox W H lam cx cy).2.1
        (rand_bbox W H lam cx cy).2.2.1 (rand_bbox W H lam cx cy).2.2.2 =
      ((W * H -
          ((rand_bbox W H lam cx cy).2.2.1 - (rand_bbox W H lam cx cy).1) *
            ((rand_bbox W H lam cx cy).2.2.2 - (rand_bbox W H lam cx cy).2.1) : ℤ) : ℚ) /
        ((W * H : ℤ) : ℚ) := by
  rcases hEq : rand_bbox W H lam cx cy with ⟨b1, c1, b2, c2⟩
  simp only [hEq]
  have h4 := hEq
  simp only [rand_bbox, Prod.mk.injEq] at h4
  obtain ⟨e1, e2, e3, e4⟩ := h4
  subst e1 e2 e3 e4
  obtain ⟨hx0, hx1, hx2⟩ :=
    bbox_core W cx ((sqrtFloorQ (((W * W : ℤ) : ℚ) * (1 - lam)) / 2 : ℕ) : ℤ)
      hW (Int.natCast_nonneg _)
  obtain ⟨hy0, hy1, hy2⟩ :=
    bbox_core H cy ((sqrtFloorQ (((H * H : ℤ) : ℚ) * (1 - lam)) / 2 : ℕ) : ℤ)
      hH (Int.natCast_nonneg _)
  set p1 := np_clip (cx - ((sqrtFloorQ (((W * W : ℤ) : ℚ) * (1 - lam)) / 2 : ℕ) : ℤ)) 0 W
  set p2 := np_clip (cx + ((sqrtFloorQ (((W * W : ℤ) : ℚ) * (1 - lam)) / 2 : ℕ) : ℤ)) 0 W
  set q1 := np_clip (cy - ((sqrtFloorQ (((H * H : ℤ) : ℚ) * (1 - lam)) / 2 : ℕ) : ℤ)) 0 H
  set q2 := np_clip (cy + ((sqrtFloorQ (((H * H : ℤ) : ℚ) * (1 - lam)) / 2 : ℕ) : ℤ)) 0 H
  have harea1 : (0 : ℤ) ≤ (p2 - p1) * (q2 - q1) :=
    mul_nonneg (by omega) (by omega)
  have harea2 : (p2 - p1) * (q2 - q1) ≤ H * W := by nlinarith
  have hHW : (0 : ℤ) < H * W := by positivity
  have hHWQ : (0 : ℚ) < ((H * W : ℤ) : ℚ) := by exact_mod_cast hHW
  refine ⟨hx0, hx1, hx2, hy0, hy1, hy2, ?_, ?_, ?_⟩
  · rw [cutmix_lam, sub_nonneg, div_le_one hHWQ]
    exact_mod_cast harea2
  · have hq : (0 : ℚ) ≤ (((p2 - p1) * (q2 - q1) : ℤ) : ℚ) / ((H * W : ℤ) : ℚ) :=
      div_nonneg (by exact_mod_cast harea1) hHWQ.le
    rw [cutmix_lam]
    linarith
  · rw [cutmix_lam]
    have hne : ((H * W : ℤ) : ℚ) ≠ 0 := ne_of_gt hHWQ
    push_cast
    push_cast at hne
    field_simp
    ring

theorem cutmix_bbox_spec_witness :
    ((1 : ℤ) ≤ 4 ∧ (0 : ℚ) ≤ 1/2 ∧ (1/2 : ℚ) ≤ 1) ∧
    0 ≤ (rand_bbox 4 4 (1/2) 1 2).1 ∧
    (rand_bbox 4 4 (1/2) 1 2).1 ≤ (rand_bbox 4 4 (1/2) 1 2).2.2.1 :=
  ⟨by norm_num,
   (cutmix_bbox_spec 4 4 (1/2) 1 2 (by norm_num) (by norm_num) (by norm_num)
      (by norm_num)).1,
   (cutmix_bbox_spec 4 4 (1/2) 1 2 (by norm_num) (by norm_num) (by norm_num)
      (by norm_num)).2.1⟩

lemma sum_map_div_mul (l : List ℚ) (S C : ℚ) :
    (l.map (fun w => w / S * C)).sum = l.sum / S * C := by
  induction l with
  | nil => simp
  | cons a t ih => simp only [List.map_cons, List.sum_cons, ih]; ring

lemma foldr_max_le (labels : List ℕ) (C : ℕ) (h : ∀ l ∈ labels, l < C) :
    labels.foldr (fun l m => max (l + 1) m) 0 ≤ C := by
  induction labels with
  | nil => simp
  | cons a t ih =>
    simp only [List.foldr_cons]
    have ha := h a (by simp)
    have ht := ih (fun l hl => h l (by simp [hl]))
    omega

lemma bincount_length (C : ℕ) (labels : List ℕ) (h : ∀ l ∈ labels, l < C) :
    (bincount C labels).length = C := by
  simp only [bincount, List.length_map, List.length_range]
  exact max_eq_left (foldr_max_le labels C h)

lemma bincount_getD (C k : ℕ) (labels : List ℕ) (hk : k < C) :
    (bincount C labels).getD k 0 = labels.count k := by
  have hkL : k < max C (labels.foldr (fun l m => max (l + 1) m) 0) :=
    lt_of_lt_of_le hk (le_max_left _ _)
  simp only [bincount, List.getD_eq_getElem?_getD, List.getElem?_map,
    List.getElem?_range hkL]
  rfl

lemma getD_map {α β : Type} (l : List α) (f : α → β) (k : ℕ) (hk : k < l.length)
    (d : β) (d' : α) : (l.map f).getD k d = f (l.getD k d') := by
  rw [List.getD_eq_getElem?_getD, List.getD_eq_getElem?_getD, List.getElem?_map,
    List.getElem?_eq_getElem hk]
  rfl

lemma rawClassWeights_length (cfg : TrainConfig) (sq : ℕ → ℚ) (counts : List ℕ) :
    (rawClassWeights cfg sq counts).length = counts.length := by
  unfold rawClassWeights
  split_ifs <;> simp

lemma rawClassWeights_pos (cfg : TrainConfig) (sq : ℕ → ℚ) (counts : List ℕ)
    (hsq : ∀ m : ℕ, 0 < m → 0 < sq m)
    (hb0 : 0 < cfg.effective_num_beta) (hb1 : cfg.effective_num_beta < 1)
    (hc : ∀ m ∈ counts, 0 < m) :
    ∀ w ∈ rawClassWeights cfg sq counts, 0 < w := by
  intro w hw
  unfold rawClassWeights at hw
  split_ifs at hw
  case pos =>
    obtain ⟨m, hm, rfl⟩ := List.mem_map.mp hw
    exact div_pos one_pos (by exact_mod_cast hc m hm)
  case pos =>
    obtain ⟨m, hm, rfl⟩ := List.mem_map.mp hw
    exact div_pos one_pos (hsq m (hc m hm))
  case pos =>
    obtain ⟨m, hm, rfl⟩ := List.mem_map.mp hw
    have hmpos := hc m hm
    have hlt : cfg.effective_num_beta ^ m < 1 :=
      pow_lt_one₀ hb0.le hb1 (Nat.pos_iff_ne_zero.mp hmpos)
    exact div_pos (by linarith) (by linarith)
  case neg =>
    obtain ⟨m, hm, rfl⟩ := List.mem_map.mp hw
    exact div_pos one_pos (by exact_mod_cast hc m hm)

/-- C3: with `USE_CLASS_WEIGHTS` set and a positive training count for
every one of the `NUM_CLASSES` classes, `_calculate_class_weights`
returns a weight vector of one entry per class that sums to
`NUM_CLASSES`, whose pre-normalization entry for class `k` is
`1/count_k` for method `'inverse'` (and for any unrecognized method),
`1/sqrt(count_k)` for `'inverse_sqrt'`, and
`(1-beta)/(1-beta^count_k)` for `'effective_samples'`; with
`USE_CLASS_WEIGHTS` unset it returns `None`.  (`sq` abstracts `np.sqrt`,
positive on positive integers; the effective-samples `beta` lies in
`(0,1)` as in Cui et al. 2019.) -/
theorem class_weights_spec (cfg : TrainConfig) (sq : ℕ → ℚ) (labels : List ℕ)
    (hsq : ∀ m : ℕ, 0 < m → 0 < sq m)
    (hb0 : 0 < cfg.effective_num_beta) (hb1 : cfg.effective_num_beta < 1)
    (hlab : ∀ l ∈ labels, l < cfg.num_classes)
    (hpos : ∀ k, k < cfg.num_classes → 0 < labels.count k)
    (hC : 0 < cfg.num_classes) :
    (cfg.use_class_weights = false → calculate_class_weights cfg sq labels = none) ∧
    (cfg.use_class_weights = true → ∃ w : List ℚ,
      calculate_class_weights cfg sq labels = some w ∧
      w.length = cfg.num_classes ∧
      w.sum = (cfg.num_classes : ℚ) ∧
      ∀ k, k < cfg.num_classes →
        (rawClassWeights cfg sq (bincount cfg.num_classes labels)).getD k 0 =
          (if cfg.class_weight_method = "inverse" then 1 / (labels.count k : ℚ)
           else if cfg.class_weight_method = "inverse_sqrt" then
             1 / sq (labels.count k)
           else if cfg.class_weight_method = "effective_samples" then
             (1 - cfg.effective_num_beta) /
               (1 - cfg.effective_num_beta ^ labels.count k)
           else 1 / (labels.count k : ℚ))) := by
  constructor
  · intro h
    simp [calculate_class_weights, h]
  · intro h
    have hclen : (bincount cfg.num_classes labels).length = cfg.num_classes :=
      bincount_length _ _ hlab
    have hcpos : ∀ m ∈ bincount cfg.num_classes labels, 0 < m := by
      intro m hm
      unfold bincount at hm
      obtain ⟨k, hk, rfl⟩ := List.mem_map.mp hm
      rw [List.mem_range] at hk
      have hkC : k < cfg.num_classes := by
        have := foldr_max_le labels cfg.num_classes hlab
        omega
      exact hpos k hkC
    have hrpos := rawClassWeights_pos cfg sq (bincount cfg.num_classes labels)
      hsq hb0 hb1 hcpos
    have hrlen : (rawClassWeights cfg sq (bincount cfg.num_classes labels)).length =
        cfg.num_classes := (rawClassWeights_length _ _ _).trans hclen
    have hrne : rawClassWeights cfg sq (bincount cfg.num_classes labels) ≠ [] := by
      intro hnil
      rw [hnil] at hrlen
      simp at hrlen
      omega
    have hSpos : 0 < (rawClassWeights cfg sq (bincount cfg.num_classes labels)).sum :=
      List.sum_pos _ hrpos hrne
    refine ⟨(rawClassWeights cfg sq (bincount cfg.num_classes labels)).map
      (fun w => w / (rawClassWeights cfg sq (bincount cfg.num_classes labels)).sum *
        (cfg.num_classes : ℚ)), ?_, ?_, ?_, ?_⟩
    · simp [calculate_class_weights, h]
    · simp [hrlen]
    · rw [sum_map_div_mul, div_self (ne_of_gt hSpos), one_mul]
    · intro k hk
      have hkc : k < (bincount cfg.num_classes labels).length := by omega
      unfold rawClassWeights
      split_ifs <;>
        rw [getD_map _ _ _ hkc _ 0, bincount_getD _ _ _ hk]

theorem class_weights_spec_witness :
    (∀ l ∈ [0, 1, 2, 1, 2, 2], l < 3) ∧
    ∃ w, calculate_class_weights ⟨5, 2, 3, true, "inverse", 1/2, 1, 1, 1, 1⟩
        (fun n => (Nat.sqrt n : ℚ)) [0, 1, 2, 1, 2, 2] = some w ∧
      w.length = 3 ∧ w.sum = 3 := by
  have h := (class_weights_spec ⟨5, 2, 3, true, "inverse", 1/2, 1, 1, 1, 1⟩
    (fun n => (Nat.sqrt n : ℚ)) [0, 1, 2, 1, 2, 2]
    (fun m hm => by
      show (0 : ℚ) < (Nat.sqrt m : ℚ)
      exact_mod_cast Nat.sqrt_pos.mpr hm)
    (by norm_num) (by norm_num) (by decide) (by decide) (by decide)).2 rfl
  obtain ⟨w, hw1, hw2, hw3, _⟩ := h
  exact ⟨by decide, w, hw1, hw2, hw3⟩

/-! ### Infrastructure for the epoch-loop claims -/

lemma trainLoop_nil (cfg : TrainConfig) (s : TrainerState) (e : ℕ) :
    trainLoop cfg s e [] = ⟨s, [], 0, false⟩ := rfl

lemma trainLoop_cons (cfg : TrainConfig) (s : TrainerState) (e : ℕ)
    (o : EpochOutcome) (rest : List EpochOutcome) :
    trainLoop cfg s e (o :: rest) =
      if (epochBody cfg s e o).stop then
        ⟨(epochBody cfg s e o).state, (epochBody cfg s e o).events, 1, true⟩
      else
        ⟨(trainLoop cfg (epochBody cfg s e o).state (e + 1) rest).state,
         (epochBody cfg s e o).events ++
           (trainLoop cfg (epochBody cfg s e o).state (e + 1) rest).events,
         (trainLoop cfg (epochBody cfg s e o).state (e + 1) rest).epochsRun + 1,
         (trainLoop cfg (epochBody cfg s e o).state (e + 1) rest).stoppedEarly⟩ := rfl

lemma trainLoop_epochsRun_le (cfg : TrainConfig) (s : TrainerState) (e : ℕ)
    (l : List EpochOutcome) : (trainLoop cfg s e l).epochsRun ≤ l.length := by
  induction l generalizing s e with
  | nil => simp [trainLoop_nil]
  | cons o rest ih =>
    rw [trainLoop_cons]
    by_cases h : (epochBody cfg s e o).stop
    · simp [h]
    · simpa [h] using ih (epochBody cfg s e o).state (e + 1)

lemma trainLoop_epochsRun_of_alive (cfg : TrainConfig) (s : TrainerState) (e : ℕ)
    (l : List EpochOutcome) (h : (trainLoop cfg s e l).stoppedEarly = false) :
    (trainLoop cfg s e l).epochsRun = l.length := by
  induction l generalizing s e with
  | nil => simp [trainLoop_nil]
  | cons o rest ih =>
    rw [trainLoop_cons] at h ⊢
    by_cases hst : (epochBody cfg s e o).stop
    · simp [hst] at h
    · simp only [hst, if_false] at h ⊢
      simpa using ih (epochBody cfg s e o).state (e + 1) h

lemma trainLoop_append (cfg : TrainConfig) (s : TrainerState) (e : ℕ)
    (l₁ l₂ : List EpochOutcome) :
    trainLoop cfg s e (l₁ ++ l₂) =
      if (trainLoop cfg s e l₁).stoppedEarly then trainLoop cfg s e l₁
      else
        ⟨(trainLoop cfg (trainLoop cfg s e l₁).state (e + l₁.length) l₂).state,
         (trainLoop cfg s e l₁).events ++
           (trainLoop cfg (trainLoop cfg s e l₁).state (e + l₁.length) l₂).events,
         (trainLoop cfg s e l₁).epochsRun +
           (trainLoop cfg (trainLoop cfg s e l₁).state (e + l₁.length) l₂).epochsRun,
         (trainLoop cfg (trainLoop cfg s e l₁).state (e + l₁.length) l₂).stoppedEarly⟩ := by
  induction l₁ generalizing s e with
  | nil => simp [trainLoop_nil]
  | cons o t ih =>
    rw [List.cons_append, trainLoop_cons, trainLoop_cons]
    by_cases hst : (epochBody cfg s e o).stop
    · simp [hst]
    · simp only [hst, if_false]
      rw [ih]
      by_cases h2 : (trainLoop cfg (epochBody cfg s e o).state (e + 1) t).stoppedEarly
      · simp only [h2, if_true, List.length_cons]
        rfl
      · simp only [h2, if_false, List.length_cons]
        have harg : e + 1 + t.length = e + (t.length + 1) := by omega
        rw [harg]
        simp [List.append_assoc]
        omega

lemma runUpTo_zero (cfg : TrainConfig) (l : List EpochOutcome) :
    runUpTo cfg l 0 = ⟨initialState, [], 0, false⟩ := rfl

lemma runUpTo_stab (cfg : TrainConfig) (l : List EpochOutcome) (i : ℕ)
    (h : l.length ≤ i) : runUpTo cfg l i = runUpTo cfg l l.length := by
  unfold runUpTo
  rw [List.take_of_length_le h, List.take_of_length_le (le_refl _)]

lemma runUpTo_succ_stopped (cfg : TrainConfig) (l : List EpochOutcome) (i : ℕ)
    (h : (runUpTo cfg l i).stoppedEarly = true) :
    runUpTo cfg l (i + 1) = runUpTo cfg l i := by
  by_cases hi : i < l.length
  · have htake : l.take (i + 1) = l.take i ++ [l.getD i default] := by
      rw [List.take_succ, List.getElem?_eq_getElem hi, List.getD_eq_getElem l default hi]
      rfl
    unfold runUpTo at h ⊢
    rw [htake, trainLoop_append, if_pos h]
  · have h1 : l.length ≤ i := by omega
    rw [runUpTo_stab cfg l i h1, runUpTo_stab cfg l (i + 1) (by omega)]

lemma runUpTo_succ_alive (cfg : TrainConfig) (l : List EpochOutcome) (i : ℕ)
    (hi : i < l.length) (ha : (runUpTo cfg l i).stoppedEarly = false) :
    runUpTo cfg l (i + 1) =
      ⟨(epochBody cfg (runUpTo cfg l i).state i (l.getD i default)).state,
       (runUpTo cfg l i).events ++
         (epochBody cfg (runUpTo cfg l i).state i (l.getD i default)).events,
       (runUpTo cfg l i).epochsRun + 1,
       (epochBody cfg (runUpTo cfg l i).state i (l.getD i default)).stop⟩ := by
  have htake : l.take (i + 1) = l.take i ++ [l.getD i default] := by
    rw [List.take_succ, List.getElem?_eq_getElem hi, List.getD_eq_getElem l default hi]
    rfl
  have hlen : (l.take i).length = i := by
    rw [List.length_take]
    omega
  unfold runUpTo at ha ⊢
  rw [htake, trainLoop_append, if_neg (by rw [ha]; exact Bool.false_ne_true),
    hlen, Nat.zero_add, trainLoop_cons, trainLoop_nil]
  by_cases hst : (epochBody cfg (trainLoop cfg initialState 0 (l.take i)).state i
      (l.getD i default)).stop
  · simp only [List.getD_eq_getElem?_getD] at hst
    simp [hst]
  · simp only [List.getD_eq_getElem?_getD] at hst
    simp [hst]

lemma runUpTo_stopped_mono (cfg : TrainConfig) (l : List EpochOutcome) {i j : ℕ}
    (hij : i ≤ j) (h : (runUpTo cfg l i).stoppedEarly = true) :
    (runUpTo cfg l j).stoppedEarly = true := by
  induction j with
  | zero =>
    have : i = 0 := by omega
    subst this
    exact h
  | succ j ih =>
    by_cases hc : i ≤ j
    · have hj := ih hc
      rw [runUpTo_succ_stopped cfg l j hj]
      exact hj
    · have : i = j + 1 := by omega
      subst this
      exact h

lemma runUpTo_alive_anti (cfg : TrainConfig) (l : List EpochOutcome) {i j : ℕ}
    (hij : i ≤ j) (h : (runUpTo cfg l j).stoppedEarly = false) :
    (runUpTo cfg l i).stoppedEarly = false := by
  cases hx : (runUpTo cfg l i).stoppedEarly
  · rfl
  · rw [runUpTo_stopped_mono cfg l hij hx] at h
    exact absurd h (by simp)

lemma runUpTo_epochsRun_alive (cfg : TrainConfig) (l : List EpochOutcome) (i : ℕ)
    (hi : i ≤ l.length) (ha : (runUpTo cfg l i).stoppedEarly = false) :
    (runUpTo cfg l i).epochsRun = i := by
  unfold runUpTo at ha ⊢
  rw [trainLoop_epochsRun_of_alive _ _ _ _ ha, List.length_take]
  omega

lemma runUpTo_epochsRun_mono (cfg : TrainConfig) (l : List EpochOutcome) {i j : ℕ}
    (hij : i ≤ j) :
    (runUpTo cfg l i).epochsRun ≤ (runUpTo cfg l j).epochsRun := by
  induction j with
  | zero =>
    have : i = 0 := by omega
    subst this
    exact le_refl _
  | succ j ih =>
    by_cases hc : i ≤ j
    · refine le_trans (ih hc) ?_
      cases hb : (runUpTo cfg l j).stoppedEarly
      · by_cases hj : j < l.length
        · rw [runUpTo_succ_alive cfg l j hj hb]
          exact Nat.le_succ _
        · rw [runUpTo_stab cfg l (j + 1) (by omega), ← runUpTo_stab cfg l j (by omega)]
      · rw [runUpTo_succ_stopped cfg l j hb]
    · have : i = j + 1 := by omega
      subst this
      exact le_refl _

lemma runUpTo_ran_iff (cfg : TrainConfig) (l : List EpochOutcome) :
    ∀ i ≤ l.length, ∀ k,
      (k < (runUpTo cfg l i).epochsRun ↔
        (k < i ∧ (runUpTo cfg l k).stoppedEarly = false)) := by
  intro i
  induction i with
  | zero =>
    intro _ k
    rw [runUpTo_zero]
    simp
  | succ i ih =>
    intro hi1 k
    have hi : i < l.length := by omega
    cases hb : (runUpTo cfg l i).stoppedEarly
    · have hrn : (runUpTo cfg l i).epochsRun = i :=
        runUpTo_epochsRun_alive cfg l i (by omega) hb
      have hIH := ih (by omega) k
      rw [hrn] at hIH
      rw [runUpTo_succ_alive cfg l i hi hb]
      dsimp only
      rw [hrn]
      constructor
      · intro hk
        rcases Nat.lt_or_ge k i with h1 | h1
        · exact ⟨by omega, (hIH.mp h1).2⟩
        · have : k = i := by omega
          subst this
          exact ⟨by omega, hb⟩
      · rintro ⟨hk, _⟩
        omega
    · rw [runUpTo_succ_stopped cfg l i hb]
      rw [ih (by omega) k]
      constructor
      · rintro ⟨hk, hal⟩
        exact ⟨by omega, hal⟩
      · rintro ⟨hk, hal⟩
        refine ⟨?_, hal⟩
        by_contra hk2
        have hki : k = i := by omega
        rw [hki] at hal
        rw [hal] at hb
        exact absurd hb (by simp)

lemma valLosses_getD (l : List EpochOutcome) (i : ℕ) (hi : i < l.length) :
    (valLosses l).getD i 0 = (l.getD i default).val_loss := by
  unfold valLosses
  exact getD_map l (·.val_loss) i hi 0 default

lemma valLosses_length (l : List EpochOutcome) : (valLosses l).length = l.length := by
  unfold valLosses
  simp

lemma bestBefore_succ (vals : List ℚ) (i : ℕ) (hi : i < vals.length) :
    bestBefore vals (i + 1) = min (bestBefore vals i) ((vals.getD i 0 : ℚ) : WithTop ℚ) := by
  unfold bestBefore
  have hiL : i < (vals.map (fun v : ℚ => (v : WithTop ℚ))).length := by simpa
  rw [List.map_take, List.map_take, List.take_succ, List.getElem?_eq_getElem hiL,
    List.getD_eq_getElem vals 0 hi]
  simp [List.foldl_append]

lemma epochBody_best_le (cfg : TrainConfig) (s : TrainerState) (e : ℕ)
    (o : EpochOutcome) :
    (epochBody cfg s e o).state.best_val_loss ≤ s.best_val_loss := by
  unfold epochBody
  dsimp only
  split_ifs with h1 h2
  · exact le_of_lt h1
  · exact le_refl _
  · exact le_refl _

lemma runUpTo_best_step (cfg : TrainConfig) (l : List EpochOutcome) (i : ℕ) :
    (runUpTo cfg l (i + 1)).state.best_val_loss ≤
      (runUpTo cfg l i).state.best_val_loss := by
  cases hb : (runUpTo cfg l i).stoppedEarly
  · by_cases hi : i < l.length
    · rw [runUpTo_succ_alive cfg l i hi hb]
      exact epochBody_best_le cfg _ i _
    · rw [runUpTo_stab cfg l (i + 1) (by omega), ← runUpTo_stab cfg l i (by omega)]
  · rw [runUpTo_succ_stopped cfg l i hb]

lemma runUpTo_best_mono (cfg : TrainConfig) (l : List EpochOutcome) {i j : ℕ}
    (hij : i ≤ j) :
    (runUpTo cfg l j).state.best_val_loss ≤
      (runUpTo cfg l i).state.best_val_loss := by
  induction j with
  | zero =>
    have : i = 0 := by omega
    subst this
    exact le_refl _
  | succ j ih =>
    by_cases hc : i ≤ j
    · exact le_trans (runUpTo_best_step cfg l j) (ih hc)
    · have : i = j + 1 := by omega
      subst this
      exact le_refl _

lemma runUpTo_best_eq (cfg : TrainConfig) (l : List EpochOutcome) :
    ∀ i ≤ l.length, (runUpTo cfg l i).stoppedEarly = false →
      (runUpTo cfg l i).state.best_val_loss = bestBefore (valLosses l) i := by
  intro i
  induction i with
  | zero =>
    intro _ _
    rw [runUpTo_zero]
    rfl
  | succ i ih =>
    intro hi1 ha
    have hi : i < l.length := by omega
    have ha' : (runUpTo cfg l i).stoppedEarly = false :=
      runUpTo_alive_anti cfg l (Nat.le_succ i) ha
    have hihb := ih (by omega) ha'
    have hvlen : i < (valLosses l).length := by rw [valLosses_length]; omega
    rw [runUpTo_succ_alive cfg l i hi ha']
    dsimp only
    rw [bestBefore_succ _ i hvlen, valLosses_getD l i hi]
    unfold epochBody
    dsimp only
    split_ifs with h1 h2
    · dsimp only
      rw [hihb] at h1
      exact (min_eq_right h1.le).symm
    · dsimp only
      rw [hihb] at h1 ⊢
      exact (min_eq_left (not_lt.mp h1)).symm
    · dsimp only
      rw [hihb] at h1 ⊢
      exact (min_eq_left (not_lt.mp h1)).symm

lemma failStreak_le (vals : List ℚ) : ∀ m, failStreak vals m ≤ m := by
  intro m
  induction m with
  | zero => exact le_refl 0
  | succ m ih =>
    rw [failStreak]
    split_ifs
    · omega
    · omega

lemma failStreak_not_improves (vals : List ℚ) :
    ∀ m j, m - failStreak vals m ≤ j → j < m → ¬ improvesAt vals j := by
  intro m
  induction m with
  | zero => intro j _ hj; omega
  | succ m ih =>
    intro j hj1 hj2
    rw [failStreak] at hj1
    by_cases hI : improvesAt vals m
    · rw [if_pos hI] at hj1
      omega
    · rw [if_neg hI] at hj1
      by_cases hjm : j = m
      · subst hjm; exact hI
      · have hfs := failStreak_le vals m
        exact ih j (by omega) (by omega)

lemma failStreak_of_window (vals : List ℚ) :
    ∀ k m, k ≤ m → (∀ j, m - k ≤ j → j < m → ¬ improvesAt vals j) →
      k ≤ failStreak vals m := by
  intro k
  induction k with
  | zero => intro m _ _; omega
  | succ k ih =>
    intro m hk hw
    obtain ⟨m', rfl⟩ : ∃ m', m = m' + 1 := ⟨m - 1, by omega⟩
    have hIm : ¬ improvesAt vals m' := hw m' (by omega) (by omega)
    rw [failStreak, if_neg hIm]
    have : k ≤ failStreak vals m' :=
      ih m' (by omega) (fun j hj1 hj2 => hw j (by omega) (by omega))
    omega

lemma failWindow_iff_streak (P : ℕ) (vals : List ℚ) (i : ℕ) :
    failWindow P vals i ↔ P ≤ failStreak vals (i + 1) := by
  unfold failWindow
  constructor
  · rintro ⟨h1, h2⟩
    refine failStreak_of_window vals P (i + 1) h1 (fun j hj1 hj2 => ?_)
    exact h2 j (Finset.mem_Icc.mpr ⟨by omega, by omega⟩)
  · intro h
    refine ⟨le_trans h (failStreak_le vals (i + 1)), fun j hj => ?_⟩
    rw [Finset.mem_Icc] at hj
    have hfs := failStreak_le vals (i + 1)
    exact failStreak_not_improves vals (i + 1) j (by omega) (by omega)

lemma runUpTo_patience_eq (cfg : TrainConfig) (l : List EpochOutcome)
    (hp : 1 ≤ cfg.early_stop_patience) :
    ∀ i ≤ l.length, (runUpTo cfg l i).stoppedEarly = false →
      (runUpTo cfg l i).state.patience_counter = failStreak (valLosses l) i ∧
      failStreak (valLosses l) i < cfg.early_stop_patience := by
  intro i
  induction i with
  | zero =>
    intro _ _
    exact ⟨rfl, hp⟩
  | succ i ih =>
    intro hi1 ha
    have hi : i < l.length := by omega
    have ha' : (runUpTo cfg l i).stoppedEarly = false :=
      runUpTo_alive_anti cfg l (Nat.le_succ i) ha
    obtain ⟨ihp, ihlt⟩ := ih (by omega) ha'
    have hbest := runUpTo_best_eq cfg l i (by omega) ha'
    have himp : improvesAt (valLosses l) i ↔
        ((l.getD i default).val_loss : WithTop ℚ) <
          (runUpTo cfg l i).state.best_val_loss := by
      unfold improvesAt
      rw [valLosses_getD l i hi, hbest]
    rw [runUpTo_succ_alive cfg l i hi ha'] at ha ⊢
    dsimp only at ha ⊢
    unfold epochBody at ha ⊢
    dsimp only at ha ⊢
    by_cases h1 : ((l.getD i default).val_loss : WithTop ℚ) <
        (runUpTo cfg l i).state.best_val_loss
    · have hI : improvesAt (valLosses l) i := himp.mpr h1
      rw [if_pos h1]
      refine ⟨?_, ?_⟩
      · simp [failStreak, hI]
      · simp [failStreak, hI]
        omega
    · have hI : ¬ improvesAt (valLosses l) i := fun hc => h1 (himp.mp hc)
      rw [if_neg h1] at ha ⊢
      by_cases h2 : cfg.early_stop_patience ≤
          (runUpTo cfg l i).state.patience_counter + 1
      · rw [if_pos h2] at ha
        exact absurd ha (by simp)
      · rw [if_neg h2]
        refine ⟨?_, ?_⟩
        · simp [failStreak, hI]
          omega
        · simp [failStreak, hI]
          omega

lemma runUpTo_patience_le (cfg : TrainConfig) (l : List EpochOutcome)
    (hp : 1 ≤ cfg.early_stop_patience) :
    ∀ i, (runUpTo cfg l i).state.patience_counter ≤ cfg.early_stop_patience := by
  intro i
  induction i with
  | zero => exact Nat.zero_le _
  | succ i ih =>
    cases hb : (runUpTo cfg l i).stoppedEarly
    · by_cases hi : i < l.length
      · obtain ⟨hpat, hlt⟩ := runUpTo_patience_eq cfg l hp i (by omega) hb
        rw [runUpTo_succ_alive cfg l i hi hb]
        dsimp only
        unfold epochBody
        dsimp only
        split_ifs with h1 h2
        · exact Nat.zero_le _
        · dsimp only
          omega
        · dsimp only
          omega
      · rw [runUpTo_stab cfg l (i + 1) (by omega), ← runUpTo_stab cfg l i (by omega)]
        exact ih
    · rw [runUpTo_succ_stopped cfg l i hb]
      exact ih

lemma runUpTo_stopped_iff (cfg : TrainConfig) (l : List EpochOutcome)
    (hp : 1 ≤ cfg.early_stop_patience) :
    ∀ i ≤ l.length,
      ((runUpTo cfg l i).stoppedEarly = true ↔
        ∃ j < i, failWindow cfg.early_stop_patience (valLosses l) j) := by
  intro i
  induction i with
  | zero =>
    intro _
    rw [runUpTo_zero]
    simp
  | succ i ih =>
    intro hi1
    have hi : i < l.length := by omega
    cases hb : (runUpTo cfg l i).stoppedEarly
    · obtain ⟨hpat, hlt⟩ := runUpTo_patience_eq cfg l hp i (by omega) hb
      have hbest := runUpTo_best_eq cfg l i (by omega) hb
      have himp : improvesAt (valLosses l) i ↔
          ((l.getD i default).val_loss : WithTop ℚ) <
            (runUpTo cfg l i).state.best_val_loss := by
        unfold improvesAt
        rw [valLosses_getD l i hi, hbest]
      rw [runUpTo_succ_alive cfg l i hi hb]
      dsimp only
      unfold epochBody
      dsimp only
      constructor
      · intro hstop
        by_cases h1 : ((l.getD i default).val_loss : WithTop ℚ) <
            (runUpTo cfg l i).state.best_val_loss
        · rw [if_pos h1] at hstop
          exact absurd hstop (by simp)
        · rw [if_neg h1] at hstop
          by_cases h2 : cfg.early_stop_patience ≤
              (runUpTo cfg l i).state.patience_counter + 1
          · refine ⟨i, by omega, ?_⟩
            rw [failWindow_iff_streak]
            have hI : ¬ improvesAt (valLosses l) i := fun hc => h1 (himp.mp hc)
            have hfs : failStreak (valLosses l) (i + 1) =
                failStreak (valLosses l) i + 1 := by
              simp [failStreak, hI]
            omega
          · rw [if_neg h2] at hstop
            exact absurd hstop (by simp)
      · rintro ⟨j, hj, hw⟩
        rcases Nat.lt_or_ge j i with hji | hji
        · have hst : (runUpTo cfg l i).stoppedEarly = true :=
            (ih (by omega)).mpr ⟨j, hji, hw⟩
          rw [hst] at hb
          exact absurd hb (by simp)
        · have hj' : j = i := by omega
          subst hj'
          rw [failWindow_iff_streak] at hw
          by_cases hI : improvesAt (valLosses l) j
          · have : failStreak (valLosses l) (j + 1) = 0 := by simp [failStreak, hI]
            omega
          · have hfs : failStreak (valLosses l) (j + 1) =
                failStreak (valLosses l) j + 1 := by simp [failStreak, hI]
            have h1 : ¬ (((l.getD j default).val_loss : WithTop ℚ) <
                (runUpTo cfg l j).state.best_val_loss) := fun hc => hI (himp.mpr hc)
            rw [if_neg h1, if_pos (by omega : cfg.early_stop_patience ≤
              (runUpTo cfg l j).state.patience_counter + 1)]
    · rw [runUpTo_succ_stopped cfg l i hb]
      obtain ⟨j, hj, hw⟩ := (ih (by omega)).mp hb
      exact iff_of_true hb ⟨j, by omega, hw⟩

lemma runUpTo_save_best_iff (cfg : TrainConfig) (l : List EpochOutcome) :
    ∀ i ≤ l.length, ∀ k,
      (Event.save_best k ∈ (runUpTo cfg l i).events ↔
        k < (runUpTo cfg l i).epochsRun ∧ improvesAt (valLosses l) k) := by
  intro i
  induction i with
  | zero =>
    intro _ k
    rw [runUpTo_zero]
    simp
  | succ i ih =>
    intro hi1 k
    have hi : i < l.length := by omega
    cases hb : (runUpTo cfg l i).stoppedEarly
    · have hrn : (runUpTo cfg l i).epochsRun = i :=
        runUpTo_epochsRun_alive cfg l i (by omega) hb
      have hIH := ih (by omega) k
      rw [hrn] at hIH
      have hbest := runUpTo_best_eq cfg l i (by omega) hb
      have himp : improvesAt (valLosses l) i ↔
          ((l.getD i default).val_loss : WithTop ℚ) <
            (runUpTo cfg l i).state.best_val_loss := by
        unfold improvesAt
        rw [valLosses_getD l i hi, hbest]
      rw [runUpTo_succ_alive cfg l i hi hb]
      dsimp only
      rw [List.mem_append, hIH, hrn]
      unfold epochBody
      dsimp only
      by_cases h1 : ((l.getD i default).val_loss : WithTop ℚ) <
          (runUpTo cfg l i).state.best_val_loss
      · rw [if_pos h1]
        dsimp only
        constructor
        · rintro (⟨hk, hI⟩ | hmem)
          · exact ⟨by omega, hI⟩
          · simp only [List.mem_cons, List.mem_singleton] at hmem
            rcases hmem with hmem | hmem
            · obtain hki : k = i := by
                simpa [Event.save_best.injEq] using hmem
              exact ⟨by omega, hki ▸ himp.mpr h1⟩
            · exact absurd hmem (by simp)
        · rintro ⟨hk, hI⟩
          by_cases hki : k = i
          · right
            simp [hki]
          · left
            exact ⟨by omega, hI⟩
      · rw [if_neg h1]
        have hknoti : ∀ hI : improvesAt (valLosses l) k, k ≠ i :=
          fun hI hki => h1 (himp.mp (hki ▸ hI))
        by_cases h2 : cfg.early_stop_patience ≤
            (runUpTo cfg l i).state.patience_counter + 1
        · rw [if_pos h2]
          dsimp only
          constructor
          · rintro (⟨hk, hI⟩ | hmem)
            · exact ⟨by omega, hI⟩
            · exact absurd hmem (by simp)
          · rintro ⟨hk, hI⟩
            left
            have := hknoti hI
            exact ⟨by omega, hI⟩
        · rw [if_neg h2]
          dsimp only
          constructor
          · rintro (⟨hk, hI⟩ | hmem)
            · exact ⟨by omega, hI⟩
            · simp only [List.mem_singleton] at hmem
              exact absurd hmem (by simp)
          · rintro ⟨hk, hI⟩
            left
            have := hknoti hI
            exact ⟨by omega, hI⟩
    · rw [runUpTo_succ_stopped cfg l i hb]
      exact ih (by omega) k

lemma runUpTo_save_epoch_iff (cfg : TrainConfig) (l : List EpochOutcome) :
    ∀ i ≤ l.length, ∀ k,
      (Event.save_epoch_ckpt k ∈ (runUpTo cfg l i).events ↔
        (k < i ∧ (runUpTo cfg l k).stoppedEarly = false ∧
          (runUpTo cfg l (k + 1)).stoppedEarly = false)) := by
  intro i
  induction i with
  | zero =>
    intro _ k
    rw [runUpTo_zero]
    simp
  | succ i ih =>
    intro hi1 k
    have hi : i < l.length := by omega
    cases hb : (runUpTo cfg l i).stoppedEarly
    · have hIH := ih (by omega) k
      have hsucc := runUpTo_succ_alive cfg l i hi hb
      have hstop1 : (runUpTo cfg l (i + 1)).stoppedEarly =
          (epochBody cfg (runUpTo cfg l i).state i (l.getD i default)).stop := by
        rw [hsucc]
      rw [hsucc]
      dsimp only
      rw [List.mem_append, hIH]
      unfold epochBody at hstop1 ⊢
      dsimp only at hstop1 ⊢
      by_cases h1 : ((l.getD i default).val_loss : WithTop ℚ) <
          (runUpTo cfg l i).state.best_val_loss
      · rw [if_pos h1] at hstop1 ⊢
        dsimp only at hstop1 ⊢
        constructor
        · rintro (⟨hk, ha1, ha2⟩ | hmem)
          · exact ⟨by omega, ha1, ha2⟩
          · simp only [List.mem_cons, List.mem_singleton] at hmem
            rcases hmem with hmem | hmem
            · exact absurd hmem (by simp)
            · obtain hki : k = i := by
                simpa [Event.save_epoch_ckpt.injEq] using hmem
              subst hki
              exact ⟨by omega, hb, hstop1⟩
        · rintro ⟨hk, ha1, ha2⟩
          by_cases hki : k = i
          · right
            simp [hki]
          · left
            exact ⟨by omega, ha1, ha2⟩
      · rw [if_neg h1] at hstop1 ⊢
        by_cases h2 : cfg.early_stop_patience ≤
            (runUpTo cfg l i).state.patience_counter + 1
        · rw [if_pos h2] at hstop1 ⊢
          dsimp only at hstop1 ⊢
          constructor
          · rintro (⟨hk, ha1, ha2⟩ | hmem)
            · exact ⟨by omega, ha1, ha2⟩
            · exact absurd hmem (by simp)
          · rintro ⟨hk, ha1, ha2⟩
            left
            by_cases hki : k = i
            · subst hki
              rw [hstop1] at ha2
              exact absurd ha2 (by simp)
            · exact ⟨by omega, ha1, ha2⟩
        · rw [if_neg h2] at hstop1 ⊢
          dsimp only at hstop1 ⊢
          constructor
          · rintro (⟨hk, ha1, ha2⟩ | hmem)
            · exact ⟨by omega, ha1, ha2⟩
            · obtain hki : k = i := by
                simpa [Event.save_epoch_ckpt.injEq] using hmem
              subst hki
              exact ⟨by omega, hb, hstop1⟩
          · rintro ⟨hk, ha1, ha2⟩
            by_cases hki : k = i
            · right
              simp [hki]
            · left
              exact ⟨by omega, ha1, ha2⟩
    · rw [runUpTo_succ_stopped cfg l i hb]
      rw [ih (by omega) k]
      constructor
      · rintro ⟨hk, ha1, ha2⟩
        exact ⟨by omega, ha1, ha2⟩
      · rintro ⟨hk, ha1, ha2⟩
        refine ⟨?_, ha1, ha2⟩
        by_contra hk2
        have hki : k = i := by omega
        rw [hki] at ha1
        rw [ha1] at hb
        exact absurd hb (by simp)

lemma epochBody_events_shape (cfg : TrainConfig) (s : TrainerState) (e : ℕ)
    (o : EpochOutcome) :
    ∀ ev ∈ (epochBody cfg s e o).events,
      (∃ k, ev = Event.save_best k) ∨ (∃ k, ev = Event.save_epoch_ckpt k) := by
  unfold epochBody
  dsimp only
  split_ifs
  · intro ev hev
    simp only [List.mem_cons, List.mem_singleton] at hev
    rcases hev with h | h
    · exact Or.inl ⟨e, h⟩
    · rcases h with h | h
      · exact Or.inr ⟨e, h⟩
      · exact absurd h (by simp)
  · intro ev hev
    exact absurd hev (by simp)
  · intro ev hev
    simp only [List.mem_singleton] at hev
    exact Or.inr ⟨e, hev⟩

lemma trainLoop_events_shape (cfg : TrainConfig) (s : TrainerState) (e : ℕ)
    (l : List EpochOutcome) :
    ∀ ev ∈ (trainLoop cfg s e l).events,
      (∃ k, ev = Event.save_best k) ∨ (∃ k, ev = Event.save_epoch_ckpt k) := by
  induction l generalizing s e with
  | nil =>
    intro ev hev
    rw [trainLoop_nil] at hev
    exact absurd hev (by simp)
  | cons o rest ih =>
    rw [trainLoop_cons]
    by_cases hst : (epochBody cfg s e o).stop
    · simp only [hst, if_true]
      exact epochBody_events_shape cfg s e o
    · simp only [hst, if_false]
      intro ev hev
      rcases List.mem_append.mp hev with h | h
      · exact epochBody_events_shape cfg s e o ev h
      · exact ih _ _ ev h

lemma epochBody_histories (cfg : TrainConfig) (s : TrainerState) (e : ℕ)
    (o : EpochOutcome) :
    (epochBody cfg s e o).state.train_losses = s.train_losses ++ [o.train_loss] ∧
    (epochBody cfg s e o).state.val_losses = s.val_losses ++ [o.val_loss] ∧
    (epochBody cfg s e o).state.train_accuracies =
      s.train_accuracies ++ [o.train_acc] ∧
    (epochBody cfg s e o).state.val_accuracies = s.val_accuracies ++ [o.val_acc] := by
  unfold epochBody
  dsimp only
  split_ifs <;> exact ⟨rfl, rfl, rfl, rfl⟩

lemma trainLoop_histories (cfg : TrainConfig) (s : TrainerState) (e : ℕ)
    (l : List EpochOutcome) :
    (trainLoop cfg s e l).state.train_losses =
      s.train_losses ++ (l.take (trainLoop cfg s e l).epochsRun).map (·.train_loss) ∧
    (trainLoop cfg s e l).state.val_losses =
      s.val_losses ++ (l.take (trainLoop cfg s e l).epochsRun).map (·.val_loss) ∧
    (trainLoop cfg s e l).state.train_accuracies =
      s.train_accuracies ++ (l.take (trainLoop cfg s e l).epochsRun).map (·.train_acc) ∧
    (trainLoop cfg s e l).state.val_accuracies =
      s.val_accuracies ++ (l.take (trainLoop cfg s e l).epochsRun).map (·.val_acc) := by
  induction l generalizing s e with
  | nil => simp [trainLoop_nil]
  | cons o rest ih =>
    obtain ⟨h1, h2, h3, h4⟩ := epochBody_histories cfg s e o
    rw [trainLoop_cons]
    by_cases hst : (epochBody cfg s e o).stop
    · rw [if_pos hst]
      dsimp only
      simp [h1, h2, h3, h4]
    · rw [if_neg hst]
      dsimp only
      obtain ⟨g1, g2, g3, g4⟩ := ih (epochBody cfg s e o).state (e + 1)
      rw [List.take_succ_cons]
      simp [g1, g2, g3, g4, h1, h2, h3, h4]

lemma runUpTo_stop_point (cfg : TrainConfig) (l : List EpochOutcome) :
    ∀ i, (runUpTo cfg l i).stoppedEarly = true →
      ∃ j < i, (runUpTo cfg l j).stoppedEarly = false ∧
        (runUpTo cfg l (j + 1)).stoppedEarly = true ∧
        (runUpTo cfg l i).epochsRun = j + 1 := by
  intro i
  induction i with
  | zero =>
    intro h
    rw [runUpTo_zero] at h
    exact absurd h (by simp)
  | succ i ih =>
    intro h
    cases hb : (runUpTo cfg l i).stoppedEarly
    · refine ⟨i, by omega, hb, h, ?_⟩
      by_cases hi : i < l.length
      · rw [runUpTo_succ_alive cfg l i hi hb]
        dsimp only
        rw [runUpTo_epochsRun_alive cfg l i (by omega) hb]
      · rw [runUpTo_stab cfg l (i + 1) (by omega), ← runUpTo_stab cfg l i (by omega)]
          at h
        rw [h] at hb
        exact absurd hb (by simp)
    · obtain ⟨j, hj, ha1, ha2, hrn⟩ := ih hb
      refine ⟨j, by omega, ha1, ha2, ?_⟩
      rw [runUpTo_succ_stopped cfg l i hb]
      exact hrn

lemma lt_foldl_min {α : Type} [LinearOrder α] (v a : α) (L : List α) :
    v < L.foldl min a ↔ v < a ∧ ∀ x ∈ L, v < x := by
  induction L generalizing a with
  | nil => simp
  | cons x t ih =>
    rw [List.foldl_cons, ih, lt_min_iff]
    constructor
    · rintro ⟨⟨h1, h2⟩, h3⟩
      refine ⟨h1, fun y hy => ?_⟩
      rcases List.mem_cons.mp hy with rfl | hy
      · exact h2
      · exact h3 y hy
    · rintro ⟨h1, h2⟩
      exact ⟨⟨h1, h2 x (by simp)⟩, fun y hy => h2 y (by simp [hy])⟩

lemma improvesAt_iff_forall (vals : List ℚ) (k : ℕ) (hk : k < vals.length) :
    improvesAt vals k ↔ ∀ j < k, vals.getD k 0 < vals.getD j 0 := by
  unfold improvesAt bestBefore
  rw [lt_foldl_min]
  constructor
  · rintro ⟨_, hall⟩ j hj
    have hjlen : j < vals.length := by omega
    have hjt : j < (vals.take k).length := by
      rw [List.length_take]
      omega
    have hmem : ((vals.getD j 0 : ℚ) : WithTop ℚ) ∈
        (vals.take k).map (fun v : ℚ => (v : WithTop ℚ)) := by
      rw [List.getD_eq_getElem vals 0 hjlen]
      have : vals[j] = (vals.take k)[j] := (List.getElem_take ..).symm
      rw [this]
      exact List.mem_map_of_mem _ (List.getElem_mem hjt)
    have := hall _ hmem
    exact_mod_cast this
  · intro hf
    refine ⟨WithTop.coe_lt_top _, fun x hx => ?_⟩
    obtain ⟨v, hv, rfl⟩ := List.mem_map.mp hx
    obtain ⟨j, hjt, rfl⟩ := List.mem_iff_getElem.mp hv
    have hjk : j < k := by
      have := hjt
      rw [List.length_take] at this
      omega
    have hjlen : j < vals.length := by omega
    have hval : (vals.take k)[j] = vals.getD j 0 := by
      rw [List.getD_eq_getElem vals 0 hjlen]
      exact List.getElem_take ..
    rw [hval]
    exact_mod_cast hf j hjk

/-- C1: in every `train()` run the epoch loop executes at most
`NUM_EPOCHS` epochs; the patience counter never exceeds
`EARLY_STOP_PATIENCE`, is reset to `0` on every epoch whose validation
loss is strictly below the best seen so far and incremented by `1`
otherwise; and the loop terminates early (by the line-277 `break`)
exactly when the validation loss has failed to improve on the best seen
so far for `EARLY_STOP_PATIENCE` consecutive epochs. -/
theorem early_stopping_spec (cfg : TrainConfig) (outs : List EpochOutcome)
    (hp : 1 ≤ cfg.early_stop_patience) (hlen : cfg.num_epochs ≤ outs.length) :
    (train_run cfg outs).epochsRun ≤ cfg.num_epochs ∧
    (∀ i, (runUpTo cfg (outs.take cfg.num_epochs) i).state.patience_counter ≤
      cfg.early_stop_patience) ∧
    (∀ i, i + 1 ≤ (train_run cfg outs).epochsRun →
      (runUpTo cfg (outs.take cfg.num_epochs) (i + 1)).state.patience_counter =
        (if improvesAt (valLosses (outs.take cfg.num_epochs)) i then 0
         else (runUpTo cfg (outs.take cfg.num_epochs) i).state.patience_counter + 1)) ∧
    ((train_run cfg outs).stoppedEarly = true ↔
      ∃ i < cfg.num_epochs,
        failWindow cfg.early_stop_patience (valLosses (outs.take cfg.num_epochs)) i) := by
  set l := outs.take cfg.num_epochs with hldef
  have hL : l.length = cfg.num_epochs := by
    rw [hldef, List.length_take]
    omega
  have hfull : train_run cfg outs = runUpTo cfg l l.length := by
    unfold train_run runUpTo
    rw [List.take_length]
  refine ⟨?_, ?_, ?_, ?_⟩
  · have := trainLoop_epochsRun_le cfg initialState 0 l
    unfold train_run
    rw [← hldef]
    omega
  · intro i
    exact runUpTo_patience_le cfg l hp i
  · intro i hi
    have hiN : i < (runUpTo cfg l l.length).epochsRun := by
      rw [← hfull]
      omega
    obtain ⟨hilen, halive⟩ :=
      (runUpTo_ran_iff cfg l l.length (le_refl _) i).mp hiN
    have hbest := runUpTo_best_eq cfg l i (by omega) halive
    have himp : improvesAt (valLosses l) i ↔
        ((l.getD i default).val_loss : WithTop ℚ) <
          (runUpTo cfg l i).state.best_val_loss := by
      unfold improvesAt
      rw [valLosses_getD l i hilen, hbest]
    rw [runUpTo_succ_alive cfg l i hilen halive]
    dsimp only
    unfold epochBody
    dsimp only
    by_cases h1 : ((l.getD i default).val_loss : WithTop ℚ) <
        (runUpTo cfg l i).state.best_val_loss
    · rw [if_pos h1, if_pos (himp.mpr h1)]
    · rw [if_neg h1, if_neg (fun hc => h1 (himp.mp hc))]
      by_cases h2 : cfg.early_stop_patience ≤
          (runUpTo cfg l i).state.patience_counter + 1
      · rw [if_pos h2]
      · rw [if_neg h2]
  · rw [hfull, ← hL]
    exact runUpTo_stopped_iff cfg l hp l.length (le_refl _)

theorem early_stopping_spec_witness :
    (1 ≤ 1 ∧
      2 ≤ ([⟨1, 1, 5, 1, 1, []⟩, ⟨1, 1, 6, 1, 1, []⟩] : List EpochOutcome).length) ∧
    (train_run ⟨2, 1, 3, true, "inverse", 1/2, 1, 1, 1, 1⟩
      [⟨1, 1, 5, 1, 1, []⟩, ⟨1, 1, 6, 1, 1, []⟩]).epochsRun ≤ 2 :=
  ⟨⟨le_refl 1, by simp⟩,
   (early_stopping_spec ⟨2, 1, 3, true, "inverse", 1/2, 1, 1, 1, 1⟩
      [⟨1, 1, 5, 1, 1, []⟩, ⟨1, 1, 6, 1, 1, []⟩] (le_refl 1) (by simp)).1⟩

/-- C4: across one `train()` run, `best_val_loss` is non-increasing;
`best_model.pt` is saved during exactly those executed epochs whose
validation loss is strictly less than every previous epoch's validation
loss; and `model_epoch_{k+1}.pt` is saved for exactly those executed
epochs `k` (0-based) that do not trigger the early-stopping `break`. -/
theorem checkpoint_bookkeeping_spec (cfg : TrainConfig) (outs : List EpochOutcome) :
    (∀ i j, i ≤ j →
      (runUpTo cfg (outs.take cfg.num_epochs) j).state.best_val_loss ≤
        (runUpTo cfg (outs.take cfg.num_epochs) i).state.best_val_loss) ∧
    (∀ k, Event.save_best k ∈ (train_run cfg outs).events ↔
      (k < (train_run cfg outs).epochsRun ∧
        ∀ j < k, (valLosses (outs.take cfg.num_epochs)).getD k 0 <
          (valLosses (outs.take cfg.num_epochs)).getD j 0)) ∧
    (∀ k, Event.save_epoch_ckpt k ∈ (train_run cfg outs).events ↔
      (k < (train_run cfg outs).epochsRun ∧
        ¬((train_run cfg outs).stoppedEarly = true ∧
          k + 1 = (train_run cfg outs).epochsRun))) := by
  set l := outs.take cfg.num_epochs with hldef
  have hfull : train_run cfg outs = runUpTo cfg l l.length := by
    unfold train_run runUpTo
    rw [List.take_length]
  have hNle : (train_run cfg outs).epochsRun ≤ l.length := by
    unfold train_run
    exact trainLoop_epochsRun_le cfg initialState 0 l
  refine ⟨?_, ?_, ?_⟩
  · intro i j hij
    exact runUpTo_best_mono cfg l hij
  · intro k
    have hiff := runUpTo_save_best_iff cfg l l.length (le_refl _) k
    rw [← hfull] at hiff
    rw [hiff]
    constructor
    · rintro ⟨hk, hI⟩
      have hklen : k < (valLosses l).length := by
        rw [valLosses_length]
        omega
      exact ⟨hk, (improvesAt_iff_forall (valLosses l) k hklen).mp hI⟩
    · rintro ⟨hk, hf⟩
      have hklen : k < (valLosses l).length := by
        rw [valLosses_length]
        omega
      exact ⟨hk, (improvesAt_iff_forall (valLosses l) k hklen).mpr hf⟩
  · intro k
    have hiff := runUpTo_save_epoch_iff cfg l l.length (le_refl _) k
    rw [← hfull] at hiff
    rw [hiff]
    constructor
    · rintro ⟨hk, ha1, ha2⟩
      constructor
      · rw [hfull]
        exact (runUpTo_ran_iff cfg l l.length (le_refl _) k).mpr ⟨hk, ha1⟩
      · rintro ⟨hs, hEq⟩
        obtain ⟨j, hj, hb1, hb2, hrn⟩ :=
          runUpTo_stop_point cfg l l.length (hfull ▸ hs)
        have hjk : j = k := by
          rw [hfull] at hEq
          omega
        subst hjk
        rw [ha2] at hb2
        exact absurd hb2 (by simp)
    · rintro ⟨hk, hno⟩
      obtain ⟨hklen, halive⟩ :=
        (runUpTo_ran_iff cfg l l.length (le_refl _) k).mp (hfull ▸ hk)
      refine ⟨hklen, halive, ?_⟩
      cases hx : (runUpTo cfg l (k + 1)).stoppedEarly
      · rfl
      · exfalso
        have hsf : (runUpTo cfg l l.length).stoppedEarly = true :=
          runUpTo_stopped_mono cfg l (by omega) hx
        have hNk : (runUpTo cfg l l.length).epochsRun ≤ k + 1 := by
          by_contra hlt
          push_neg at hlt
          have halive1 := ((runUpTo_ran_iff cfg l l.length (le_refl _) (k + 1)).mp hlt).2
          rw [halive1] at hx
          exact absurd hx (by simp)
        refine hno ⟨by rw [hfull]; exact hsf, ?_⟩
        rw [hfull]
        rw [hfull] at hk
        omega

theorem checkpoint_bookkeeping_spec_witness :
    0 ≤ 1 ∧
    (runUpTo ⟨2, 1, 3, true, "inverse", 1/2, 1, 1, 1, 1⟩
        (([⟨1, 1, 5, 1, 1, []⟩, ⟨1, 1, 6, 1, 1, []⟩] : List EpochOutcome).take 2)
        1).state.best_val_loss ≤
      (runUpTo ⟨2, 1, 3, true, "inverse", 1/2, 1, 1, 1, 1⟩
        (([⟨1, 1, 5, 1, 1, []⟩, ⟨1, 1, 6, 1, 1, []⟩] : List EpochOutcome).take 2)
        0).state.best_val_loss :=
  ⟨Nat.zero_le 1,
   (checkpoint_bookkeeping_spec ⟨2, 1, 3, true, "inverse", 1/2, 1, 1, 1, 1⟩
      [⟨1, 1, 5, 1, 1, []⟩, ⟨1, 1, 6, 1, 1, []⟩]).1 0 1 (Nat.zero_le 1)⟩

/-- C7: in every completed `train()` run, the reload of the best saved
model and the evaluations of the test and noisy-test loaders come only
after all epoch-loop events (which are only checkpoint saves), in the
order reload, test evaluation, noisy-test evaluation; the returned
record holds `test_results` and `noise_test_results` — each carrying the
accuracy, macro F1 and macro one-vs-rest AUC that `evaluate` computed
for that split — alongside the per-epoch train/validation loss and
accuracy histories of the executed epochs. -/
theorem final_evaluation_spec (cfg : TrainConfig) (E : ExternalMetrics)
    (outs : List EpochOutcome) (test_batches noise_batches : List EvalBatch) :
    (train cfg E outs test_batches noise_batches).2 =
      (train_run cfg outs).events ++
        [Event.load_best, Event.eval_test, Event.eval_noise] ∧
    (∀ ev ∈ (train_run cfg outs).events,
      (∃ k, ev = Event.save_best k) ∨ (∃ k, ev = Event.save_epoch_ckpt k)) ∧
    (train cfg E outs test_batches noise_batches).1.test_results =
      evaluate cfg E test_batches ∧
    (train cfg E outs test_batches noise_batches).1.noise_test_results =
      evaluate cfg E noise_batches ∧
    (∀ batches : List EvalBatch,
      (evaluate cfg E batches).accuracy =
        E.accuracy_score ((batches.map (·.labels)).flatten)
          (((batches.map (·.logits)).flatten).map argmax) ∧
      (evaluate cfg E batches).f1 =
        E.f1_average ((batches.map (·.labels)).flatten)
          (((batches.map (·.logits)).flatten).map argmax) ∧
      (evaluate cfg E batches).auc =
        (E.roc_auc_ovr
          (((batches.map (·.labels)).flatten).map (onehot cfg.num_classes))
          (((batches.map (·.logits)).flatten).map E.softmax)).getD 0) ∧
    (train cfg E outs test_batches noise_batches).1.train_losses =
      ((outs.take cfg.num_epochs).take (train_run cfg outs).epochsRun).map
        (·.train_loss) ∧
    (train cfg E outs test_batches noise_batches).1.val_losses =
      ((outs.take cfg.num_epochs).take (train_run cfg outs).epochsRun).map
        (·.val_loss) ∧
    (train cfg E outs test_batches noise_batches).1.train_accuracies =
      ((outs.take cfg.num_epochs).take (train_run cfg outs).epochsRun).map
        (·.train_acc) ∧
    (train cfg E outs test_batches noise_batches).1.val_accuracies =
      ((outs.take cfg.num_epochs).take (train_run cfg outs).epochsRun).map
        (·.val_acc) := by
  obtain ⟨t1, t2, t3, t4⟩ :=
    trainLoop_histories cfg initialState 0 (outs.take cfg.num_epochs)
  refine ⟨rfl, ?_, rfl, rfl, fun batches => ⟨rfl, rfl, rfl⟩, ?_, ?_, ?_, ?_⟩
  · unfold train_run
    exact trainLoop_events_shape cfg initialState 0 (outs.take cfg.num_epochs)
  · simpa using t1
  · simpa using t2
  · simpa using t3
  · simpa using t4

theorem final_evaluation_spec_witness :
    (train ⟨1, 1, 3, true, "inverse", 1/2, 1, 1, 1, 1⟩
        ⟨fun _ _ => 0, fun _ _ => 0, fun _ _ => none, fun p => p⟩ [] [] []).2 =
      (train_run ⟨1, 1, 3, true, "inverse", 1/2, 1, 1, 1, 1⟩ []).events ++
        [Event.load_best, Event.eval_test, Event.eval_noise] :=
  (final_evaluation_spec ⟨1, 1, 3, true, "inverse", 1/2, 1, 1, 1, 1⟩
    ⟨fun _ _ => 0, fun _ _ => 0, fun _ _ => none, fun p => p⟩ [] [] []).1

end SentimentTrainer
